import Mathlib

/-!
# Verification of the kyc compiler (`src/main/resources/kyc.py`)

This file gives a shallow embedding of the pure core of `kyc.py`:
the type-tagged value encoder (`_compile_int`, `_compile_bytestring`,
`_compile_unicode_string`, `_compile_tuple`, `_compile_list`,
`_compile_dict`, `_compile_nonetype`, `_compile_bool`, `_compile_float`,
`_compile_code_object`, `_compile_object`), the container assembly part of
`compile_kyc`, the output-path derivation in `compile_kyc`, and the
per-line request handling of `daemonise`.

Modelling conventions:
* Python `bytes` values are `List Nat` with every element intended < 256.
* Python `str` values are `List Nat` of Unicode code points.
* Python exceptions are modelled with `Except Err`.  In particular
  `int.to_bytes(length=n, ...)` raises `OverflowError` when the integer is
  not representable in `n` bytes (it never truncates), which is modelled by
  returning `Except.error Err.overflowError`.
* `struct.pack("<d", v)` is a bijection between floats and 8-byte strings;
  a float value is carried in the data model directly as its packed 8 bytes.
-/

/-- Exceptions that the encoding functions in `kyc.py` can raise:
`OverflowError` (from `int.to_bytes`) and `ValueError` (the explicit
`raise ValueError(f"Unknown type {type(i)}")` in `_compile_object`). -/
inductive Err where
  | overflowError
  | valueError (msg : String)
deriving DecidableEq, Repr

/-- Little-endian base-256 digits: `natLE k v` is the `k`-byte little-endian
encoding of `v % 256^k`. -/
def natLE : Nat → Nat → List Nat
  | 0, _ => []
  | k + 1, v => v % 256 :: natLE k (v / 256)

/-- `v.to_bytes(length=len, byteorder="little")` for a nonnegative int:
raises `OverflowError` when `v` does not fit in `len` bytes. -/
def toBytesUnsigned (len v : Nat) : Except Err (List Nat) :=
  if v < 256 ^ len then .ok (natLE len v) else .error .overflowError

/-- `i.to_bytes(length=len, byteorder="little", signed=True)`:
raises `OverflowError` when `i` is outside `[-2^(8*len-1), 2^(8*len-1))`;
otherwise emits the two's-complement little-endian bytes. -/
def toBytesSigned (len : Nat) (i : Int) : Except Err (List Nat) :=
  if -((2 : Int) ^ (8 * len - 1)) ≤ i ∧ i < (2 : Int) ^ (8 * len - 1) then
    .ok (natLE len (i % ((2 : Int) ^ (8 * len))).toNat)
  else .error .overflowError

/-- Little-endian value of a byte list (inverse reading of `natLE`). -/
def fromLE : List Nat → Nat
  | [] => 0
  | b :: rest => b + 256 * fromLE rest

/-- Decode a little-endian byte list as a two's-complement signed integer. -/
def decodeSignedLE (bs : List Nat) : Int :=
  let u := fromLE bs
  if u < 2 ^ (8 * bs.length - 1) then (u : Int) else (u : Int) - 2 ^ (8 * bs.length)

/-- `_compile_int` (kyc.py lines 35-40): tag byte `'i'` (105) followed by
`i.to_bytes(length=4, byteorder="little", signed=True)`. -/
def _compile_int (i : Int) : Except Err (List Nat) := do
  let bs ← toBytesSigned 4 i
  pure (105 :: bs)

/-- UTF-8 encoding of one Unicode code point. -/
def utf8EncodeChar (c : Nat) : List Nat :=
  if c < 0x80 then [c]
  else if c < 0x800 then [0xC0 + c / 64, 0x80 + c % 64]
  else if c < 0x10000 then [0xE0 + c / 4096, 0x80 + (c / 64) % 64, 0x80 + c % 64]
  else [0xF0 + c / 262144, 0x80 + (c / 4096) % 64, 0x80 + (c / 64) % 64, 0x80 + c % 64]

/-- `s.encode("utf-8")` on a string given as its code points. -/
def utf8Encode (s : List Nat) : List Nat := (s.map utf8EncodeChar).flatten

/-- `_compile_bytestring` (kyc.py lines 43-48): tag `'b'` (98), 4-byte
little-endian length, then the raw bytes. -/
def _compile_bytestring (s : List Nat) : Except Err (List Nat) := do
  let size ← toBytesUnsigned 4 s.length
  pure (98 :: (size ++ s))

/-- `_compile_unicode_string` (kyc.py lines 51-57): tag `'s'` (115), 4-byte
little-endian length of the UTF-8 encoding, then the UTF-8 bytes. -/
def _compile_unicode_string (s : List Nat) : Except Err (List Nat) := do
  let encoded := utf8Encode s
  let size ← toBytesUnsigned 4 encoded.length
  pure (115 :: (size ++ encoded))

/-- `_compile_nonetype` (kyc.py lines 97-101): the single byte `'N'` (78). -/
def _compile_nonetype : List Nat := [78]

/-- `_compile_bool` (kyc.py lines 104-105): `[b"-", b"+"][v]`, i.e. the
single byte `'-'` (45) for `False` and `'+'` (43) for `True`.  Note that
this function is unreachable from `_compile_object`, because Python's
`bool` is a subclass of `int` and the `isinstance(i, int)` branch is
checked first. -/
def _compile_bool (v : Bool) : List Nat := if v then [43] else [45]

mutual
/-- The Value data model of the encoder: the runtime values `_compile_object`
(kyc.py lines 144-169) can receive.  `vfloat` carries the float as its
`struct.pack("<d", v)` bytes; `vforeign` stands for any Python object that
matches none of the `isinstance`/`hasattr`/`is None` checks and carries the
text of `type(i)` used in the error message. -/
inductive Value where
  | vint (i : Int)
  | vbytes (b : List Nat)
  | vstr (s : List Nat)
  | vtuple (l : List Value)
  | vlist (l : List Value)
  | vdict (l : List (Value × Value))
  | vnone
  | vbool (b : Bool)
  | vfloat (bits : List Nat)
  | vcode (c : CodeObject)
  | vforeign (typeName : String)

/-- The code-object record consumed by `_compile_code_object`
(kyc.py lines 117-141), fields in source order. -/
inductive CodeObject where
  | mk
    (co_argcount co_posonlyargcount co_kwonlyargcount : Int)
    (co_nlocals co_stacksize co_flags : Int)
    (co_code : List Nat)
    (co_consts co_names co_varnames co_freevars co_cellvars : List Value)
    (co_filename co_name : List Nat)
    (co_firstlineno : Int)
    (co_lnotab : List Nat)
end

mutual
/-- `_compile_tuple` (kyc.py lines 60-69): tag `'t'` (116), 4-byte
little-endian element count, then each element's encoding in order. -/
def _compile_tuple (t : List Value) : Except Err (List Nat) := do
  let size ← toBytesUnsigned 4 t.length
  let items ← joinItems t
  pure (116 :: (size ++ items))
termination_by (sizeOf t, 1)

/-- `_compile_list` (kyc.py lines 72-81): tag `'l'` (108), same layout as
`_compile_tuple`. -/
def _compile_list (t : List Value) : Except Err (List Nat) := do
  let size ← toBytesUnsigned 4 t.length
  let items ← joinItems t
  pure (108 :: (size ++ items))
termination_by (sizeOf t, 1)

/-- `_compile_dict` (kyc.py lines 84-94): tag `'d'` (100), 4-byte
little-endian pair count, then for each pair (in iteration order) the
encoded key followed by the encoded value. -/
def _compile_dict (t : List (Value × Value)) : Except Err (List Nat) := do
  let size ← toBytesUnsigned 4 t.length
  let items ← joinPairs t
  pure (100 :: (size ++ items))
termination_by (sizeOf t, 1)

/-- The `for item in t: items.append(_compile_object(item))` loop followed
by `b"".join(items)` in `_compile_tuple`/`_compile_list`. -/
def joinItems : List Value → Except Err (List Nat)
  | [] => .ok []
  | v :: rest => do
    let e ← _compile_object v
    let r ← joinItems rest
    pure (e ++ r)
termination_by l => (sizeOf l, 0)

/-- The `for k, v in t.items(): ...` loop followed by `b"".join(items)` in
`_compile_dict`: key encoding then value encoding, per pair in order. -/
def joinPairs : List (Value × Value) → Except Err (List Nat)
  | [] => .ok []
  | (k, v) :: rest => do
    let ek ← _compile_object k
    let ev ← _compile_object v
    let r ← joinPairs rest
    pure (ek ++ ev ++ r)
termination_by l => (sizeOf l, 0)

/-- `_compile_code_object` (kyc.py lines 117-141): tag `'c'` (99) followed
by the sixteen fields, each through its specific encoder, in source order. -/
def _compile_code_object : CodeObject → Except Err (List Nat)
  | .mk co_argcount co_posonlyargcount co_kwonlyargcount co_nlocals co_stacksize co_flags
      co_code co_consts co_names co_varnames co_freevars co_cellvars
      co_filename co_name co_firstlineno co_lnotab => do
    let b1 ← _compile_int co_argcount
    let b2 ← _compile_int co_posonlyargcount
    let b3 ← _compile_int co_kwonlyargcount
    let b4 ← _compile_int co_nlocals
    let b5 ← _compile_int co_stacksize
    let b6 ← _compile_int co_flags
    let b7 ← _compile_bytestring co_code
    let b8 ← _compile_tuple co_consts
    let b9 ← _compile_tuple co_names
    let b10 ← _compile_tuple co_varnames
    let b11 ← _compile_tuple co_freevars
    let b12 ← _compile_tuple co_cellvars
    let b13 ← _compile_unicode_string co_filename
    let b14 ← _compile_unicode_string co_name
    let b15 ← _compile_int co_firstlineno
    let b16 ← _compile_bytestring co_lnotab
    pure (99 :: (b1 ++ b2 ++ b3 ++ b4 ++ b5 ++ b6 ++ b7 ++ b8 ++ b9 ++ b10 ++
      b11 ++ b12 ++ b13 ++ b14 ++ b15 ++ b16))
termination_by c => (sizeOf c, 0)

/-- `_compile_object` (kyc.py lines 144-169).  The branches are listed in
the order the Python code tests them.  Because Python's `bool` is a
subclass of `int`, a boolean passes the first check `isinstance(i, int)`
and is encoded by `_compile_int` (with `True == 1`, `False == 0`); the
later `isinstance(i, bool)` branch is unreachable.  A value matching no
branch hits `raise ValueError(f"Unknown type {type(i)}")`. -/
def _compile_object : Value → Except Err (List Nat)
  | .vint i => _compile_int i
  | .vbool b => _compile_int (if b then 1 else 0)
  | .vbytes s => _compile_bytestring s
  | .vstr s => _compile_unicode_string s
  | .vtuple t => _compile_tuple t
  | .vlist t => _compile_list t
  | .vdict t => _compile_dict t
  | .vfloat bits => .ok (102 :: bits)
  | .vcode c => _compile_code_object c
  | .vnone => .ok _compile_nonetype
  | .vforeign typeName => .error (.valueError ("Unknown type " ++ typeName))
termination_by v => (sizeOf v, 2)
end

/-- The fixed file comment `CODE_COMMENT` (kyc.py line 32), as code points. -/
def CODE_COMMENT : List Nat :=
  ("This is an internal file generated by Kython. Do not edit!").toList.map Char.toNat

/-- The pure byte-assembly part of `compile_kyc` (kyc.py lines 196-220):
given the minor version of the host Python (`sys.version_info[1]`) and the
code object returned by the external `compile(...)` call, produce the
container bytes: magic `b"KYCA"`, 1-byte minor version, markers `'K'` and
`'L'`, eight zero hash bytes, the encoded comment, the encoded code object.
File I/O (reading the source, writing the `.kyc` file) is outside this
pure function; the written and returned bytes are this value. -/
def compile_kyc_bytes (pyMinor : Nat) (compiled : CodeObject) : Except Err (List Nat) := do
  let code_object ← _compile_code_object compiled
  let ver ← toBytesUnsigned 1 pyMinor
  let comment ← _compile_unicode_string CODE_COMMENT
  pure ([75, 89, 67, 65] ++ ver ++ [75] ++ [76] ++
    [0, 0, 0, 0, 0, 0, 0, 0] ++ comment ++ code_object)

/-! ## Output-path derivation (kyc.py lines 181-187 and 222)

`compile_kyc` derives the output file name from the input path with
Python's `str.split`/`str.join`:

* `last = path.split(path_sep)[-1]`
* `first = path_sep.join(path.split(path_sep)[:-1])` (or `"."` if empty)
* `filename = ending.join(last.split(ending)[:-1])`
* the output file is `first + path_sep + filename + ".kyc"`.

Strings are modelled as `List Char`.  `pySplitF` is Python's
`str.split(sep)` for a non-empty separator: scan left to right, cut at
each non-overlapping occurrence of `sep`, keep empty pieces.  The `fuel`
argument (one unit per consumed character) only makes the recursion
structural; `pySplit` supplies enough fuel for it never to run out. -/

def pySplitF (sep : List Char) : Nat → List Char → List (List Char)
  | _, [] => [[]]
  | 0, l => [l]
  | fuel + 1, c :: rest =>
    if sep ≠ [] ∧ sep.isPrefixOf (c :: rest) then
      [] :: pySplitF sep fuel ((c :: rest).drop sep.length)
    else
      match pySplitF sep fuel rest with
      | [] => [[c]]
      | s :: ss => (c :: s) :: ss

/-- Python `l.split(sep)` for non-empty `sep` (the only way kyc.py calls
it: with `path_sep` and with the `ending` argument, default `".py"`). -/
def pySplit (sep l : List Char) : List (List Char) := pySplitF sep l.length l

/-- Python `sep.join(parts)`: the parts interleaved with `sep`. -/
def pyJoin (sep : List Char) : List (List Char) → List Char
  | [] => []
  | [x] => x
  | x :: y :: xs => x ++ sep ++ pyJoin sep (y :: xs)

/-- kyc.py runs on a POSIX host when `sys.getwindowsversion()` raises
`AttributeError` (lines 25-30); the separator is then `"/"`. -/
def path_sep : List Char := ['/']

/-- The output path computed by `compile_kyc` (kyc.py lines 181-187, 222):
`first + path_sep + filename + ".kyc"` with `first`, `filename` as above. -/
def output_path (path ending : List Char) : List Char :=
  let parts := pySplit path_sep path
  let last := parts.getLastD []
  let first0 := pyJoin path_sep parts.dropLast
  let first := if first0 = [] then ['.'] else first0
  let filename := pyJoin ending ((pySplit ending last).dropLast)
  let kyc_name := filename ++ ('.' :: ['k', 'y', 'c'])
  first ++ path_sep ++ kyc_name

/-! ## The service loop (kyc.py lines 228-267)

`daemonise` reads one line at a time and handles it; the handling of a
single line is pure except for the call to `compile_kyc`, which is
abstracted as an oracle returning either the produced bytes or the
`str(e)` text of the exception `compile_kyc` raised (SyntaxError or any
other `Exception`).  The response `print`ed for the line is modelled as
`some line`; `none` models an exception escaping the loop body (which
terminates `daemonise`, since nothing catches it). -/

/-- Python `str.isspace` characters relevant to `str.split()` (ASCII). -/
def isPySpace (c : Char) : Bool :=
  c = ' ' ∨ c = '\t' ∨ c = '\n' ∨ c = '\r' ∨ c = '\x0b' ∨ c = '\x0c'

/-- Python `data.split()` (no separator): split on runs of whitespace,
with no leading/trailing empty tokens. -/
def pyWords : List Char → List Char → List (List Char)
  | [], acc => if acc = [] then [] else [acc.reverse]
  | c :: rest, acc =>
    if isPySpace c then
      if acc = [] then pyWords rest [] else acc.reverse :: pyWords rest []
    else pyWords rest (c :: acc)

/-- One lowercase hex digit. -/
def hexDigit (n : Nat) : Char :=
  if n < 10 then Char.ofNat (48 + n) else Char.ofNat (87 + n)

/-- Python `bytes.hex()`: two lowercase hex digits per byte. -/
def hexOfBytes (bs : List Nat) : List Char :=
  (bs.map fun b => [hexDigit (b % 256 / 16), hexDigit (b % 16)]).flatten

/-- `str(e).encode("utf-8").hex()` for an exception message given as code
points. -/
def hexOfMsg (msg : List Nat) : List Char := hexOfBytes (utf8Encode msg)

/-- The message of the `IndexError` raised by `args[0]` when `args` is
empty (CPython's text for a list subscript out of range). -/
def indexErrorMsg : List Nat := ("list index out of range").toList.map Char.toNat

/-- One iteration of the `while True` loop of `daemonise`
(kyc.py lines 252-267) on the line `data`, with `compile_kyc` abstracted
as `oracle` (mapping the path argument to either the container bytes or
the `str(e)` of the raised exception).

* `command, *args = data.split()` raises an uncaught `ValueError` when the
  line has no tokens (empty or all-whitespace line): modelled as `none`.
* For command `"c"`, the body of the `try` runs `compile_kyc(args[0])`;
  `args[0]` itself raises `IndexError` when no argument is present, and
  both it and any exception from `compile_kyc` are caught by the
  `except Exception` arm, printing `e <hex>`.  Success prints `C <hex>`.
* Any other command prints `u`. -/
def daemonStep (oracle : List Char → Except (List Nat) (List Nat))
    (data : List Char) : Option (List Char) :=
  match pyWords data [] with
  | [] => none
  | command :: args =>
    if command = ['c'] then
      match args with
      | [] => some ('e' :: ' ' :: hexOfMsg indexErrorMsg)
      | path :: _ =>
        match oracle path with
        | .ok compiled => some ('C' :: ' ' :: hexOfBytes compiled)
        | .error msg => some ('e' :: ' ' :: hexOfMsg msg)
    else some ['u']

/-- `i` fits `i.to_bytes(length=4, ..., signed=True)`: the signed 32-bit
range. -/
def intOK (i : Int) : Bool := decide (-(2 ^ 31) ≤ i ∧ i < 2 ^ 31)

mutual
/-- Membership in the closed Value union of the spec (section 3): every
integer (including the ones inside a code object) is a signed 32-bit
integer, every length fits the 4-byte length field of the format, and no
foreign object occurs. -/
def encodable : Value → Bool
  | .vint i => intOK i
  | .vbytes b => decide (b.length < 2 ^ 32)
  | .vstr s => decide ((utf8Encode s).length < 2 ^ 32)
  | .vtuple l => decide (l.length < 2 ^ 32) && itemsEncodable l
  | .vlist l => decide (l.length < 2 ^ 32) && itemsEncodable l
  | .vdict l => decide (l.length < 2 ^ 32) && pairsEncodable l
  | .vnone => true
  | .vbool _ => true
  | .vfloat _ => true
  | .vcode c => codeEncodable c
  | .vforeign _ => false
termination_by v => (sizeOf v, 2)

def itemsEncodable : List Value → Bool
  | [] => true
  | v :: rest => encodable v && itemsEncodable rest
termination_by l => (sizeOf l, 0)

def pairsEncodable : List (Value × Value) → Bool
  | [] => true
  | (k, v) :: rest => encodable k && encodable v && pairsEncodable rest
termination_by l => (sizeOf l, 0)

def codeEncodable : CodeObject → Bool
  | .mk co_argcount co_posonlyargcount co_kwonlyargcount co_nlocals co_stacksize co_flags
      co_code co_consts co_names co_varnames co_freevars co_cellvars
      co_filename co_name co_firstlineno co_lnotab =>
    intOK co_argcount && intOK co_posonlyargcount && intOK co_kwonlyargcount &&
    intOK co_nlocals && intOK co_stacksize && intOK co_flags &&
    decide (co_code.length < 2 ^ 32) &&
    (decide (co_consts.length < 2 ^ 32) && itemsEncodable co_consts) &&
    (decide (co_names.length < 2 ^ 32) && itemsEncodable co_names) &&
    (decide (co_varnames.length < 2 ^ 32) && itemsEncodable co_varnames) &&
    (decide (co_freevars.length < 2 ^ 32) && itemsEncodable co_freevars) &&
    (decide (co_cellvars.length < 2 ^ 32) && itemsEncodable co_cellvars) &&
    decide ((utf8Encode co_filename).length < 2 ^ 32) &&
    decide ((utf8Encode co_name).length < 2 ^ 32) &&
    intOK co_firstlineno &&
    decide (co_lnotab.length < 2 ^ 32)
termination_by c => (sizeOf c, 0)
end

/-- A concrete two-pair mapping used to instantiate the mapping-order
theorem: iteration order `(1, "a")` then `(None, True)`. -/
def D0 : List (Value × Value) := [(.vint 1, .vstr [97]), (.vnone, .vbool true)]

/-- The individual encodings of the pairs of `D0`. -/
def E0 : List (List Nat × List Nat) :=
  [([105, 1, 0, 0, 0], [115, 1, 0, 0, 0, 97]), ([78], [105, 1, 0, 0, 0])]

/-- A minimal fully-populated code object: all counts zero, all sequences
empty, empty filename and unit name. -/
def co0 : CodeObject := .mk 0 0 0 0 0 0 [] [] [] [] [] [] [] [] 0 []

/-- `_compile_code_object co0` evaluates to these bytes. -/
def CU0 : List Nat :=
  [99, 105, 0, 0, 0, 0, 105, 0, 0, 0, 0, 105, 0, 0, 0, 0, 105, 0, 0, 0, 0, 105, 0, 0, 0, 0, 
   105, 0, 0, 0, 0, 98, 0, 0, 0, 0, 116, 0, 0, 0, 0, 116, 0, 0, 0, 0, 116, 0, 0, 0, 0, 116, 0, 
   0, 0, 0, 116, 0, 0, 0, 0, 115, 0, 0, 0, 0, 115, 0, 0, 0, 0, 105, 0, 0, 0, 0, 98, 0, 0, 0, 0]

/-- `compile_kyc_bytes 8 co0` evaluates to these container bytes. -/
def B0 : List Nat :=
  [75, 89, 67, 65, 8, 75, 76, 0, 0, 0, 0, 0, 0, 0, 0, 115, 58, 0, 0, 0, 84, 104, 105, 115, 32, 
   105, 115, 32, 97, 110, 32, 105, 110, 116, 101, 114, 110, 97, 108, 32, 102, 105, 108, 101, 
   32, 103, 101, 110, 101, 114, 97, 116, 101, 100, 32, 98, 121, 32, 75, 121, 116, 104, 111, 
   110, 46, 32, 68, 111, 32, 110, 111, 116, 32, 101, 100, 105, 116, 33, 99, 105, 0, 0, 0, 0, 
   105, 0, 0, 0, 0, 105, 0, 0, 0, 0, 105, 0, 0, 0, 0, 105, 0, 0, 0, 0, 105, 0, 0, 0, 0, 98, 0, 
   0, 0, 0, 116, 0, 0, 0, 0, 116, 0, 0, 0, 0, 116, 0, 0, 0, 0, 116, 0, 0, 0, 0, 116, 0, 0, 0, 
   0, 115, 0, 0, 0, 0, 115, 0, 0, 0, 0, 105, 0, 0, 0, 0, 98, 0, 0, 0, 0]

/-- A trivial stand-in for `compile_kyc` in the service loop: every path
compiles to an empty byte sequence. -/
def oracle0 : List Char → Except (List Nat) (List Nat) := fun _ => .ok []

/-! ## Helper lemmas -/

theorem except_bind_ok {α β : Type} {e : Except Err α} {f : α → Except Err β} {a : α}
    (h : e = .ok a) : (e >>= f) = f a := by subst h; rfl

theorem toBytesUnsigned_ok {len v : Nat} (h : v < 256 ^ len) :
    toBytesUnsigned len v = .ok (natLE len v) := by
  simp [toBytesUnsigned, h]

theorem toBytesSigned4_ok {i : Int} (h1 : -(2 ^ 31) ≤ i) (h2 : i < 2 ^ 31) :
    toBytesSigned 4 i = .ok (natLE 4 (i % ((2 : Int) ^ 32)).toNat) := by
  have h3 : -(2147483648 : Int) ≤ i ∧ i < 2147483648 := by
    norm_num at h1 h2; omega
  simp [toBytesSigned, h3]

theorem compile_int_ok {i : Int} (h1 : -(2 ^ 31) ≤ i) (h2 : i < 2 ^ 31) :
    _compile_int i = .ok (105 :: natLE 4 (i % ((2 : Int) ^ 32)).toNat) := by
  rw [_compile_int, except_bind_ok (toBytesSigned4_ok h1 h2)]; rfl

theorem natLE_four (v : Nat) :
    natLE 4 v = [v % 256, v / 256 % 256, v / 256 / 256 % 256, v / 256 / 256 / 256 % 256] := by
  simp [natLE]

theorem fromLE_natLE_four (v : Nat) : fromLE (natLE 4 v) = v % 2 ^ 32 := by
  rw [natLE_four]
  simp only [fromLE]
  omega

theorem natLE_length (k v : Nat) : (natLE k v).length = k := by
  induction k generalizing v with
  | zero => rfl
  | succ k ih => simp [natLE, ih]

/-- C5: for every `n` in the signed 32-bit range, `_compile_int n` is
exactly 5 bytes, the tag `'i'` followed by `n` little-endian signed, and
decoding the 4 payload bytes little-endian signed recovers `n`. -/
theorem int_roundtrip (n : Int) (h1 : -(2 ^ 31) ≤ n) (h2 : n < 2 ^ 31) :
    ∃ payload, _compile_int n = .ok (105 :: payload) ∧ payload.length = 4 ∧
      (105 :: payload).length = 5 ∧ decodeSignedLE payload = n := by
  refine ⟨natLE 4 (n % ((2 : Int) ^ 32)).toNat, compile_int_ok h1 h2, natLE_length 4 _, ?_, ?_⟩
  · simp [natLE_length]
  · rw [decodeSignedLE]
    simp only [natLE_length, fromLE_natLE_four]
    have h4 : ((8 * 4 - 1 : Nat)) = 31 := by norm_num
    have h5 : (0 : Int) ≤ n % 2 ^ 32 := Int.emod_nonneg n (by norm_num)
    have h6 : n % 2 ^ 32 < 2 ^ 32 := Int.emod_lt_of_pos n (by norm_num)
    have h7 : (n % (2:Int) ^ 32).toNat % 2 ^ 32 = (n % (2:Int) ^ 32).toNat := by omega
    rw [show (8 * 4 : Nat) = 32 by norm_num, h7]
    have h8 : ((n % (2:Int) ^ 32).toNat : Int) = n % 2 ^ 32 := by omega
    split
    · omega
    · omega

theorem int_roundtrip_witness :
    (-(2 ^ 31) ≤ (-7 : Int)) ∧ ((-7 : Int) < 2 ^ 31) ∧
    ∃ payload, _compile_int (-7) = .ok (105 :: payload) ∧ payload.length = 4 ∧
      (105 :: payload).length = 5 ∧ decodeSignedLE payload = -7 :=
  ⟨by norm_num, by norm_num, int_roundtrip (-7) (by norm_num) (by norm_num)⟩

/-- C3: `int.to_bytes(length=4, byteorder="little", signed=True)` raises
`OverflowError` for any integer outside the signed 32-bit range, so
`_compile_int` fails there and never returns truncated bytes. -/
theorem int_overflow_rejected (n : Int) (h : n < -(2 ^ 31) ∨ 2 ^ 31 ≤ n) :
    _compile_int n = .error .overflowError := by
  have hc : ¬(-(2147483648 : Int) ≤ n ∧ n < 2147483648) := by
    norm_num at h; omega
  simp [_compile_int, toBytesSigned, hc]

theorem int_overflow_rejected_witness :
    ((2 : Int) ^ 31 < -(2 ^ 31) ∨ 2 ^ 31 ≤ (2 : Int) ^ 31) ∧
    _compile_int (2 ^ 31) = .error .overflowError :=
  ⟨Or.inr le_rfl, int_overflow_rejected (2 ^ 31) (Or.inr le_rfl)⟩

/-- C1 (the dispatch-order defect): `_compile_object` checks
`isinstance(i, int)` first and Python booleans are ints, so `True` is
encoded as the 5-byte integer record `b"i\x01\x00\x00\x00"` and `False`
as `b"i\x00\x00\x00\x00"`, not as the 1-byte records `b"+"`/`b"-"` that
`_compile_bool` would produce. -/
theorem bool_encoded_as_int_record :
    _compile_object (.vbool true) = .ok [105, 1, 0, 0, 0] ∧
    _compile_object (.vbool false) = .ok [105, 0, 0, 0, 0] ∧
    _compile_bool true = [43] ∧ _compile_bool false = [45] ∧
    ([105, 1, 0, 0, 0] : List Nat) ≠ [43] ∧
    ([105, 0, 0, 0, 0] : List Nat) ≠ [45] := by
  refine ⟨?_, ?_, rfl, rfl, by decide, by decide⟩ <;>
    simp [_compile_object, _compile_int, toBytesSigned, natLE, bind, Except.bind, pure,
      Except.pure]

theorem except_bind_eq_ok {α β : Type} {e : Except Err α} {f : α → Except Err β} {b : β}
    (h : (e >>= f) = .ok b) : ∃ a, e = .ok a ∧ f a = .ok b := by
  cases e with
  | error err => simp [Bind.bind, Except.bind] at h
  | ok a => exact ⟨a, rfl, h⟩

theorem joinPairs_forall₂ {l : List (Value × Value)} {encs : List (List Nat × List Nat)}
    (h : List.Forall₂
      (fun p e => _compile_object p.1 = .ok e.1 ∧ _compile_object p.2 = .ok e.2) l encs) :
    joinPairs l = .ok (encs.map fun e => e.1 ++ e.2).flatten := by
  induction h with
  | nil => simp [joinPairs]
  | @cons p e ltl etl hp hrest ih =>
    obtain ⟨k, v⟩ := p
    rw [joinPairs, except_bind_ok hp.1, except_bind_ok hp.2, except_bind_ok ih]
    simp [pure, Except.pure]

/-- C6: a mapping is encoded as tag `'d'` (100), the 4-byte little-endian
pair count, then for each pair its encoded key immediately followed by its
encoded value, in the mapping's iteration (insertion) order. -/
theorem dict_encoding_order (l : List (Value × Value)) (encs : List (List Nat × List Nat))
    (hlen : l.length < 2 ^ 32)
    (h : List.Forall₂
      (fun p e => _compile_object p.1 = .ok e.1 ∧ _compile_object p.2 = .ok e.2) l encs) :
    _compile_object (.vdict l) =
      .ok (100 :: (natLE 4 l.length ++ (encs.map fun e => e.1 ++ e.2).flatten)) := by
  have h256 : l.length < 256 ^ 4 := by norm_num at hlen ⊢; omega
  rw [show _compile_object (.vdict l) = _compile_dict l by simp [_compile_object]]
  rw [_compile_dict, except_bind_ok (toBytesUnsigned_ok h256),
    except_bind_ok (joinPairs_forall₂ h)]
  rfl

theorem dict_encoding_order_witness :
    _compile_object (.vdict D0) =
      .ok (100 :: (natLE 4 D0.length ++ (E0.map fun e => e.1 ++ e.2).flatten)) :=
  dict_encoding_order D0 E0 (by norm_num [D0]) (by
    simp only [D0, E0]
    refine List.Forall₂.cons ⟨?_, ?_⟩ (List.Forall₂.cons ⟨?_, ?_⟩ List.Forall₂.nil) <;>
      simp [_compile_object, _compile_int, _compile_unicode_string, _compile_nonetype,
        utf8Encode, utf8EncodeChar, toBytesSigned, toBytesUnsigned, natLE, bind, Except.bind,
        pure, Except.pure])

/-- C10: every 4-byte length field comes from `len(..).to_bytes(length=4,
byteorder="little")`, which raises `OverflowError` for a length of `2^32`
or more; so oversized byte strings, texts, tuples, lists and mappings make
the encoder fail instead of wrapping the length modulo `2^32`. -/
theorem length_fields_never_truncated :
    (∀ b : List Nat, 2 ^ 32 ≤ b.length →
      _compile_object (.vbytes b) = .error .overflowError) ∧
    (∀ s : List Nat, 2 ^ 32 ≤ (utf8Encode s).length →
      _compile_object (.vstr s) = .error .overflowError) ∧
    (∀ l : List Value, 2 ^ 32 ≤ l.length →
      _compile_object (.vtuple l) = .error .overflowError) ∧
    (∀ l : List Value, 2 ^ 32 ≤ l.length →
      _compile_object (.vlist l) = .error .overflowError) ∧
    (∀ d : List (Value × Value), 2 ^ 32 ≤ d.length →
      _compile_object (.vdict d) = .error .overflowError) := by
  refine ⟨fun b h => ?_, fun s h => ?_, fun l h => ?_, fun l h => ?_, fun d h => ?_⟩
  · norm_num at h
    have hb : ¬ b.length < 4294967296 := by omega
    rw [show _compile_object (.vbytes b) = _compile_bytestring b by simp [_compile_object]]
    simp [_compile_bytestring, toBytesUnsigned, hb, bind, Except.bind]
  · norm_num at h
    have hb : ¬ (utf8Encode s).length < 4294967296 := by omega
    rw [show _compile_object (.vstr s) = _compile_unicode_string s by simp [_compile_object]]
    simp [_compile_unicode_string, toBytesUnsigned, hb, bind, Except.bind]
  · norm_num at h
    have hb : ¬ l.length < 4294967296 := by omega
    rw [show _compile_object (.vtuple l) = _compile_tuple l by simp [_compile_object]]
    rw [_compile_tuple]
    simp [toBytesUnsigned, hb, bind, Except.bind]
  · norm_num at h
    have hb : ¬ l.length < 4294967296 := by omega
    rw [show _compile_object (.vlist l) = _compile_list l by simp [_compile_object]]
    rw [_compile_list]
    simp [toBytesUnsigned, hb, bind, Except.bind]
  · norm_num at h
    have hb : ¬ d.length < 4294967296 := by omega
    rw [show _compile_object (.vdict d) = _compile_dict d by simp [_compile_object]]
    rw [_compile_dict]
    simp [toBytesUnsigned, hb, bind, Except.bind]

theorem length_fields_never_truncated_witness :
    2 ^ 32 ≤ (List.replicate (2 ^ 32) (0 : Nat)).length ∧
    _compile_object (.vbytes (List.replicate (2 ^ 32) 0)) = .error .overflowError :=
  ⟨by rw [List.length_replicate], length_fields_never_truncated.1
    (List.replicate (2 ^ 32) 0) (by rw [List.length_replicate])⟩

theorem compile_bytestring_ok {s : List Nat} (h : s.length < 256 ^ 4) :
    _compile_bytestring s = .ok (98 :: (natLE 4 s.length ++ s)) := by
  rw [_compile_bytestring, except_bind_ok (toBytesUnsigned_ok h)]; rfl

theorem compile_unicode_ok {s : List Nat} (h : (utf8Encode s).length < 256 ^ 4) :
    _compile_unicode_string s =
      .ok (115 :: (natLE 4 (utf8Encode s).length ++ utf8Encode s)) := by
  rw [_compile_unicode_string, except_bind_ok (toBytesUnsigned_ok h)]; rfl

theorem intOK_bounds {i : Int} (h : intOK i = true) : -(2 ^ 31) ≤ i ∧ i < 2 ^ 31 := by
  simpa [intOK] using h

theorem lt_pow_flip {n : Nat} (h : n < 2 ^ 32) : n < 256 ^ 4 := by
  norm_num at h ⊢; omega

mutual
theorem object_encodable_ok (v : Value) (h : encodable v = true) :
    ∃ bs, _compile_object v = .ok bs := by
  cases v with
  | vint i =>
    rw [encodable] at h
    have hb := intOK_bounds h
    exact ⟨_, by rw [show _compile_object (.vint i) = _compile_int i by simp [_compile_object],
      compile_int_ok hb.1 hb.2]⟩
  | vbytes b =>
    rw [encodable, decide_eq_true_eq] at h
    exact ⟨_, by rw [show _compile_object (.vbytes b) = _compile_bytestring b by
      simp [_compile_object], compile_bytestring_ok (lt_pow_flip h)]⟩
  | vstr s =>
    rw [encodable, decide_eq_true_eq] at h
    exact ⟨_, by rw [show _compile_object (.vstr s) = _compile_unicode_string s by
      simp [_compile_object], compile_unicode_ok (lt_pow_flip h)]⟩
  | vtuple l =>
    rw [encodable, Bool.and_eq_true, decide_eq_true_eq] at h
    obtain ⟨bs, hbs⟩ := tuple_encodable_ok l h.1 h.2
    exact ⟨bs, by rw [show _compile_object (.vtuple l) = _compile_tuple l by
      simp [_compile_object], hbs]⟩
  | vlist l =>
    rw [encodable, Bool.and_eq_true, decide_eq_true_eq] at h
    obtain ⟨bs, hbs⟩ := list_encodable_ok l h.1 h.2
    exact ⟨bs, by rw [show _compile_object (.vlist l) = _compile_list l by
      simp [_compile_object], hbs]⟩
  | vdict l =>
    rw [encodable, Bool.and_eq_true, decide_eq_true_eq] at h
    obtain ⟨bs, hbs⟩ := dict_encodable_ok l h.1 h.2
    exact ⟨bs, by rw [show _compile_object (.vdict l) = _compile_dict l by
      simp [_compile_object], hbs]⟩
  | vnone => exact ⟨[78], by simp [_compile_object, _compile_nonetype]⟩
  | vbool b =>
    cases b
    · exact ⟨_, by rw [show _compile_object (.vbool false) = _compile_int 0 by
        simp [_compile_object], compile_int_ok (by norm_num) (by norm_num)]⟩
    · exact ⟨_, by rw [show _compile_object (.vbool true) = _compile_int 1 by
        simp [_compile_object], compile_int_ok (by norm_num) (by norm_num)]⟩
  | vfloat bits => exact ⟨102 :: bits, by simp [_compile_object]⟩
  | vcode c =>
    rw [encodable] at h
    obtain ⟨bs, hbs⟩ := code_encodable_ok c h
    exact ⟨bs, by rw [show _compile_object (.vcode c) = _compile_code_object c by
      simp [_compile_object], hbs]⟩
  | vforeign t => simp [encodable] at h
termination_by (sizeOf v, 2)

theorem tuple_encodable_ok (t : List Value) (h1 : t.length < 2 ^ 32)
    (h2 : itemsEncodable t = true) : ∃ bs, _compile_tuple t = .ok bs := by
  obtain ⟨its, hits⟩ := joinItems_encodable_ok t h2
  exact ⟨_, by rw [_compile_tuple, except_bind_ok (toBytesUnsigned_ok (lt_pow_flip h1)),
    except_bind_ok hits]; rfl⟩
termination_by (sizeOf t, 1)

theorem list_encodable_ok (t : List Value) (h1 : t.length < 2 ^ 32)
    (h2 : itemsEncodable t = true) : ∃ bs, _compile_list t = .ok bs := by
  obtain ⟨its, hits⟩ := joinItems_encodable_ok t h2
  exact ⟨_, by rw [_compile_list, except_bind_ok (toBytesUnsigned_ok (lt_pow_flip h1)),
    except_bind_ok hits]; rfl⟩
termination_by (sizeOf t, 1)

theorem dict_encodable_ok (t : List (Value × Value)) (h1 : t.length < 2 ^ 32)
    (h2 : pairsEncodable t = true) : ∃ bs, _compile_dict t = .ok bs := by
  obtain ⟨its, hits⟩ := joinPairs_encodable_ok t h2
  exact ⟨_, by rw [_compile_dict, except_bind_ok (toBytesUnsigned_ok (lt_pow_flip h1)),
    except_bind_ok hits]; rfl⟩
termination_by (sizeOf t, 1)

theorem joinItems_encodable_ok (l : List Value) (h : itemsEncodable l = true) :
    ∃ bs, joinItems l = .ok bs := by
  match l with
  | [] => exact ⟨[], by rw [joinItems]⟩
  | v :: rest =>
    rw [itemsEncodable, Bool.and_eq_true] at h
    obtain ⟨e, he⟩ := object_encodable_ok v h.1
    obtain ⟨r, hr⟩ := joinItems_encodable_ok rest h.2
    exact ⟨e ++ r, by rw [joinItems, except_bind_ok he, except_bind_ok hr]; rfl⟩
termination_by (sizeOf l, 0)

theorem joinPairs_encodable_ok (l : List (Value × Value)) (h : pairsEncodable l = true) :
    ∃ bs, joinPairs l = .ok bs := by
  match l with
  | [] => exact ⟨[], by rw [joinPairs]⟩
  | (k, v) :: rest =>
    rw [pairsEncodable, Bool.and_eq_true, Bool.and_eq_true] at h
    obtain ⟨ek, hek⟩ := object_encodable_ok k h.1.1
    obtain ⟨ev, hev⟩ := object_encodable_ok v h.1.2
    obtain ⟨r, hr⟩ := joinPairs_encodable_ok rest h.2
    refine ⟨ek ++ ev ++ r, ?_⟩
    rw [joinPairs, except_bind_ok hek, except_bind_ok hev, except_bind_ok hr]
    rfl
termination_by (sizeOf l, 0)

theorem code_encodable_ok : ∀ (c : CodeObject), codeEncodable c = true →
    ∃ bs, _compile_code_object c = .ok bs
  | .mk a1 a2 a3 a4 a5 a6 code consts names varnames freevars cellvars
      filename name lineno lnotab, h => by
    rw [codeEncodable] at h
    simp only [Bool.and_eq_true, decide_eq_true_eq] at h
    obtain ⟨⟨⟨⟨⟨⟨⟨⟨⟨⟨⟨⟨⟨⟨⟨h1, h2⟩, h3⟩, h4⟩, h5⟩, h6⟩, h7⟩, ⟨h8a, h8b⟩⟩, ⟨h9a, h9b⟩⟩,
      ⟨h10a, h10b⟩⟩, ⟨h11a, h11b⟩⟩, ⟨h12a, h12b⟩⟩, h13⟩, h14⟩, h15⟩, h16⟩ := h
    obtain ⟨t8, ht8⟩ := tuple_encodable_ok consts h8a h8b
    obtain ⟨t9, ht9⟩ := tuple_encodable_ok names h9a h9b
    obtain ⟨t10, ht10⟩ := tuple_encodable_ok varnames h10a h10b
    obtain ⟨t11, ht11⟩ := tuple_encodable_ok freevars h11a h11b
    obtain ⟨t12, ht12⟩ := tuple_encodable_ok cellvars h12a h12b
    simp only [_compile_code_object,
      except_bind_ok (compile_int_ok (intOK_bounds h1).1 (intOK_bounds h1).2),
      except_bind_ok (compile_int_ok (intOK_bounds h2).1 (intOK_bounds h2).2),
      except_bind_ok (compile_int_ok (intOK_bounds h3).1 (intOK_bounds h3).2),
      except_bind_ok (compile_int_ok (intOK_bounds h4).1 (intOK_bounds h4).2),
      except_bind_ok (compile_int_ok (intOK_bounds h5).1 (intOK_bounds h5).2),
      except_bind_ok (compile_int_ok (intOK_bounds h6).1 (intOK_bounds h6).2),
      except_bind_ok (compile_bytestring_ok (lt_pow_flip h7)),
      except_bind_ok ht8, except_bind_ok ht9, except_bind_ok ht10,
      except_bind_ok ht11, except_bind_ok ht12,
      except_bind_ok (compile_unicode_ok (lt_pow_flip h13)),
      except_bind_ok (compile_unicode_ok (lt_pow_flip h14)),
      except_bind_ok (compile_int_ok (intOK_bounds h15).1 (intOK_bounds h15).2),
      except_bind_ok (compile_bytestring_ok (lt_pow_flip h16))]
    exact ⟨_, rfl⟩
termination_by c _ => (sizeOf c, 0)
end

/-- C8: the encoder is total over the closed Value union: every value
whose components lie in the union (32-bit integers, lengths representable
in the 4-byte length fields, no foreign objects) is encoded to a byte
sequence by the terminating recursion `_compile_object`, while a value
outside the union fails with the `ValueError` of kyc.py line 169. -/
theorem encoder_total :
    (∀ v : Value, encodable v = true → ∃ bs, _compile_object v = .ok bs) ∧
    (∀ t : String, _compile_object (.vforeign t) =
      .error (.valueError ("Unknown type " ++ t))) :=
  ⟨object_encodable_ok, fun t => by simp [_compile_object]⟩

theorem encoder_total_witness :
    encodable (.vtuple [.vint 5, .vnone]) = true ∧
    (∃ bs, _compile_object (.vtuple [.vint 5, .vnone]) = .ok bs) ∧
    _compile_object (.vforeign "Foo") = .error (.valueError "Unknown type Foo") := by
  have he : encodable (.vtuple [.vint 5, .vnone]) = true := by
    simp [encodable, itemsEncodable, intOK]
  exact ⟨he, encoder_total.1 _ he, encoder_total.2 "Foo"⟩

theorem unicode_string_head {s : List Nat} {r : List Nat}
    (h : _compile_unicode_string s = .ok r) : ∃ t, r = 115 :: t := by
  rw [_compile_unicode_string] at h
  obtain ⟨size, _, h⟩ := except_bind_eq_ok h
  simp only [pure, Except.pure, Except.ok.injEq] at h
  exact ⟨_, h.symm⟩

theorem code_object_head {c : CodeObject} {r : List Nat}
    (h : _compile_code_object c = .ok r) : ∃ t, r = 99 :: t := by
  obtain ⟨a1, a2, a3, a4, a5, a6, code, consts, names, varnames, freevars, cellvars,
    filename, name, lineno, lnotab⟩ := c
  rw [_compile_code_object] at h
  obtain ⟨b1, _, h⟩ := except_bind_eq_ok h
  obtain ⟨b2, _, h⟩ := except_bind_eq_ok h
  obtain ⟨b3, _, h⟩ := except_bind_eq_ok h
  obtain ⟨b4, _, h⟩ := except_bind_eq_ok h
  obtain ⟨b5, _, h⟩ := except_bind_eq_ok h
  obtain ⟨b6, _, h⟩ := except_bind_eq_ok h
  obtain ⟨b7, _, h⟩ := except_bind_eq_ok h
  obtain ⟨b8, _, h⟩ := except_bind_eq_ok h
  obtain ⟨b9, _, h⟩ := except_bind_eq_ok h
  obtain ⟨b10, _, h⟩ := except_bind_eq_ok h
  obtain ⟨b11, _, h⟩ := except_bind_eq_ok h
  obtain ⟨b12, _, h⟩ := except_bind_eq_ok h
  obtain ⟨b13, _, h⟩ := except_bind_eq_ok h
  obtain ⟨b14, _, h⟩ := except_bind_eq_ok h
  obtain ⟨b15, _, h⟩ := except_bind_eq_ok h
  obtain ⟨b16, _, h⟩ := except_bind_eq_ok h
  simp only [pure, Except.pure, Except.ok.injEq] at h
  exact ⟨_, h.symm⟩

/-- C2: every successful compilation produces bytes beginning with the
ASCII magic `"KYCA"`, then the target-runtime minor version byte, the
markers `'K'` (75) and `'L'` (76), eight zero hash bytes, and finally the
Value-encoded comment (tag `'s'` = 115) followed by exactly one encoded
code object (tag `'c'` = 99). -/
theorem container_layout (pyMinor : Nat) (compiled : CodeObject) (b : List Nat)
    (h : compile_kyc_bytes pyMinor compiled = .ok b) :
    ∃ cmt cu,
      _compile_unicode_string CODE_COMMENT = .ok cmt ∧
      _compile_code_object compiled = .ok cu ∧
      b = [75, 89, 67, 65] ++ [pyMinor] ++ [75] ++ [76] ++
        [0, 0, 0, 0, 0, 0, 0, 0] ++ cmt ++ cu ∧
      b.take 4 = [75, 89, 67, 65] ∧
      b[4]? = some pyMinor ∧ b[5]? = some 75 ∧ b[6]? = some 76 ∧
      (b[7]? = some 0 ∧ b[8]? = some 0 ∧ b[9]? = some 0 ∧ b[10]? = some 0 ∧
        b[11]? = some 0 ∧ b[12]? = some 0 ∧ b[13]? = some 0 ∧ b[14]? = some 0) ∧
      cmt.head? = some 115 ∧ cu.head? = some 99 := by
  rw [compile_kyc_bytes] at h
  obtain ⟨cu, hcu, h⟩ := except_bind_eq_ok h
  obtain ⟨ver, hver, h⟩ := except_bind_eq_ok h
  obtain ⟨cmt, hcmt, h⟩ := except_bind_eq_ok h
  simp only [pure, Except.pure, Except.ok.injEq] at h
  have hm : pyMinor < 256 := by
    by_contra hm
    rw [toBytesUnsigned, if_neg (by norm_num; omega)] at hver
    exact absurd hver (by simp)
  have hver' : ver = [pyMinor] := by
    rw [toBytesUnsigned, if_pos (by norm_num; omega)] at hver
    simp only [Except.ok.injEq] at hver
    rw [← hver]
    simp [natLE, Nat.mod_eq_of_lt hm]
  subst hver'
  obtain ⟨ct, hct⟩ := unicode_string_head hcmt
  obtain ⟨cut, hcut⟩ := code_object_head hcu
  subst h
  refine ⟨cmt, cu, hcmt, hcu, by simp, by simp, by simp, by simp, by simp,
    ⟨by simp, by simp, by simp, by simp, by simp, by simp, by simp, by simp⟩,
    by rw [hct]; simp, by rw [hcut]; simp⟩


theorem code_object_co0 : _compile_code_object co0 = .ok CU0 := by
  simp only [co0, CU0, _compile_code_object, _compile_tuple, joinItems]
  rfl

theorem compile_kyc_bytes_co0 : compile_kyc_bytes 8 co0 = .ok B0 := by
  rw [compile_kyc_bytes, except_bind_ok code_object_co0]
  rfl

theorem container_layout_witness :
    B0.take 4 = [75, 89, 67, 65] ∧ B0[4]? = some 8 ∧ B0[5]? = some 75 ∧
    B0[6]? = some 76 ∧ B0[7]? = some 0 ∧ B0[14]? = some 0 := by
  obtain ⟨cmt, cu, h1, h2, h3, h4, h5, h6, h7, h8, h9, h10⟩ :=
    container_layout 8 co0 B0 compile_kyc_bytes_co0
  exact ⟨h4, h5, h6, h7, h8.1, h8.2.2.2.2.2.2.2⟩

/-- C4 (counterexample): on an empty request line (here the bare newline
`readline` returns for a blank line), `data.split()` has no tokens, so the
unpacking `command, *args = data.split()` raises an uncaught `ValueError`
and the loop terminates instead of answering `u`: `daemonStep` produces no
response line. -/
theorem daemon_empty_line_crash : daemonStep oracle0 ['\n'] = none := by rfl

/-- C4 (amended): every request line that contains at least one token gets
exactly one response line, which is `u`, `C <hex>`, or `e <hex>`; only a
line with no tokens (empty or whitespace-only) escapes with the uncaught
`ValueError` of the tuple unpacking. -/
theorem daemon_tokenized_line_response (oracle : List Char → Except (List Nat) (List Nat))
    (data : List Char) (h : pyWords data [] ≠ []) :
    ∃ r, daemonStep oracle data = some r ∧
      (r = ['u'] ∨ (∃ t, r = 'C' :: ' ' :: t) ∨ (∃ t, r = 'e' :: ' ' :: t)) := by
  match hw : pyWords data [] with
  | [] => exact absurd hw h
  | command :: args =>
    by_cases hc : command = ['c']
    · subst hc
      match args with
      | [] =>
        have hs : daemonStep oracle data = some ('e' :: ' ' :: hexOfMsg indexErrorMsg) := by
          rw [daemonStep, hw]
          simp
        exact ⟨_, hs, Or.inr (Or.inr ⟨_, rfl⟩)⟩
      | path :: rest =>
        match ho : oracle path with
        | .ok compiled =>
          have hs : daemonStep oracle data = some ('C' :: ' ' :: hexOfBytes compiled) := by
            rw [daemonStep, hw]
            simp [ho]
          exact ⟨_, hs, Or.inr (Or.inl ⟨_, rfl⟩)⟩
        | .error msg =>
          have hs : daemonStep oracle data = some ('e' :: ' ' :: hexOfMsg msg) := by
            rw [daemonStep, hw]
            simp [ho]
          exact ⟨_, hs, Or.inr (Or.inr ⟨_, rfl⟩)⟩
    · have hs : daemonStep oracle data = some ['u'] := by
        rw [daemonStep, hw]
        simp [hc]
      exact ⟨['u'], hs, Or.inl rfl⟩

theorem daemon_tokenized_line_response_witness :
    pyWords ['x', ' ', 'f'] [] ≠ [] ∧
    ∃ r, daemonStep oracle0 ['x', ' ', 'f'] = some r ∧
      (r = ['u'] ∨ (∃ t, r = 'C' :: ' ' :: t) ∨ (∃ t, r = 'e' :: ' ' :: t)) :=
  ⟨by decide, daemon_tokenized_line_response oracle0 ['x', ' ', 'f'] (by decide)⟩

/-- C9: a request line whose only token is `c` reaches `args[0]` inside the
`try` block; the `IndexError` it raises is caught by the
`except Exception` arm, so the response is `e <hex of str(e)>` — not `u`
and not a crash — and the loop moves on to the next line. -/
theorem daemon_missing_arg_error (oracle : List Char → Except (List Nat) (List Nat))
    (data : List Char) (h : pyWords data [] = [['c']]) :
    daemonStep oracle data = some ('e' :: ' ' :: hexOfMsg indexErrorMsg) ∧
    ('e' :: ' ' :: hexOfMsg indexErrorMsg) ≠ ['u'] ∧
    daemonStep oracle data ≠ none := by
  have hs : daemonStep oracle data = some ('e' :: ' ' :: hexOfMsg indexErrorMsg) := by
    rw [daemonStep, h]
    simp
  exact ⟨hs, by decide, by rw [hs]; simp⟩

theorem daemon_missing_arg_error_witness :
    pyWords ['c'] [] = [['c']] ∧
    daemonStep oracle0 ['c'] = some ('e' :: ' ' :: hexOfMsg indexErrorMsg) ∧
    ('e' :: ' ' :: hexOfMsg indexErrorMsg) ≠ ['u'] ∧
    daemonStep oracle0 ['c'] ≠ none :=
  ⟨by decide, daemon_missing_arg_error oracle0 ['c'] (by decide)⟩

theorem isPrefixOf_true_iff {l1 l2 : List Char} : l1.isPrefixOf l2 = true ↔ l1 <+: l2 :=
  List.isPrefixOf_iff_prefix

theorem pySplitF_nil (sep : List Char) (fuel : Nat) : pySplitF sep fuel [] = [[]] := by
  cases fuel <;> rfl

theorem pySplitF_fuel (sep : List Char) : ∀ (f1 f2 : Nat) (l : List Char),
    l.length ≤ f1 → l.length ≤ f2 → pySplitF sep f1 l = pySplitF sep f2 l := by
  intro f1
  induction f1 with
  | zero =>
    intro f2 l h1 h2
    match l with
    | [] => rw [pySplitF_nil, pySplitF_nil]
    | c :: rest => simp at h1
  | succ f ih =>
    intro f2 l h1 h2
    match l, f2 with
    | [], _ => rw [pySplitF_nil, pySplitF_nil]
    | c :: rest, 0 => simp at h2
    | c :: rest, g + 1 =>
      rw [pySplitF, pySplitF]
      by_cases hif : sep ≠ [] ∧ sep.isPrefixOf (c :: rest)
      · rw [if_pos hif, if_pos hif]
        have hsep : 1 ≤ sep.length := by
          cases hsc : sep with
          | nil => exact absurd hsc hif.1
          | cons a b => simp
        congr 1
        apply ih
        · simp only [List.length_drop, List.length_cons] at h1 ⊢
          omega
        · simp only [List.length_drop, List.length_cons] at h2 ⊢
          omega
      · rw [if_neg hif, if_neg hif]
        rw [ih g rest (by simp at h1; omega) (by simp at h2; omega)]

theorem pySplit_nil (sep : List Char) : pySplit sep [] = [[]] := rfl

theorem pySplit_cons (sep : List Char) (c : Char) (rest : List Char) :
    pySplit sep (c :: rest) =
      if sep ≠ [] ∧ sep.isPrefixOf (c :: rest) then
        [] :: pySplit sep ((c :: rest).drop sep.length)
      else
        match pySplit sep rest with
        | [] => [[c]]
        | s :: ss => (c :: s) :: ss := by
  rw [pySplit]
  simp only [List.length_cons]
  rw [pySplitF]
  by_cases hif : sep ≠ [] ∧ sep.isPrefixOf (c :: rest)
  · rw [if_pos hif, if_pos hif]
    have hsep : 1 ≤ sep.length := by
      cases hsc : sep with
      | nil => exact absurd hsc hif.1
      | cons a b => simp
    congr 1
    rw [pySplit]
    apply pySplitF_fuel
    · simp only [List.length_drop, List.length_cons]
      omega
    · exact le_rfl
  · rw [if_neg hif, if_neg hif]
    rfl

theorem pySplit_ne_nil (sep : List Char) (l : List Char) : pySplit sep l ≠ [] := by
  match l with
  | [] => rw [pySplit_nil]; simp
  | c :: rest =>
    rw [pySplit_cons]
    split
    · simp
    · split <;> simp

theorem pySplit_no_occ (sep : List Char) :
    ∀ l : List Char, ¬ sep <:+: l → pySplit sep l = [l] := by
  intro l
  induction l with
  | nil => intro _; exact pySplit_nil sep
  | cons c rest ih =>
    intro hinf
    rw [pySplit_cons]
    have hp : ¬ sep.isPrefixOf (c :: rest) = true := fun hp =>
      hinf (isPrefixOf_true_iff.mp hp).isInfix
    rw [if_neg fun hc => hp hc.2]
    rw [ih fun hi => hinf (List.infix_cons hi)]

theorem pyJoin_cons_first (sep : List Char) (c : Char) (s : List Char)
    (Z : List (List Char)) : pyJoin sep ((c :: s) :: Z) = c :: pyJoin sep (s :: Z) := by
  cases Z with
  | nil => rfl
  | cons z zs => rfl

theorem occ_tail {ending : List Char} {c : Char} {rest : List Char}
    (hp : ¬ ending.isPrefixOf (c :: rest) = true) (hinf : ending <:+: c :: rest) :
    ending <:+: rest := by
  obtain ⟨s, t, hst⟩ := hinf
  cases s with
  | nil => exact absurd (isPrefixOf_true_iff.mpr ⟨t, by simpa using hst⟩) hp
  | cons c2 s2 =>
    injection hst with h1 h2
    exact ⟨s2, t, h2⟩

theorem pySplit_two_of_occ {ending : List Char} (he : ending ≠ []) :
    ∀ l : List Char, ending <:+: l → 2 ≤ (pySplit ending l).length := by
  intro l
  induction l with
  | nil =>
    intro hinf
    obtain ⟨s, t, hst⟩ := hinf
    simp only [List.append_eq_nil] at hst
    exact absurd hst.1.2 he
  | cons c rest ih =>
    intro hinf
    rw [pySplit_cons]
    by_cases hp : ending.isPrefixOf (c :: rest) = true
    · rw [if_pos ⟨he, hp⟩]
      have hne := pySplit_ne_nil ending ((c :: rest).drop ending.length)
      have := List.length_pos.mpr hne
      simp only [List.length_cons]
      omega
    · rw [if_neg fun hc => hp hc.2]
      have h2 := ih (occ_tail hp hinf)
      obtain ⟨s, ss, hss⟩ := List.exists_cons_of_ne_nil (pySplit_ne_nil ending rest)
      rw [hss] at h2 ⊢
      simpa using h2

theorem pySplit_final_occ {ending : List Char} (he : ending ≠ []) :
    ∀ l : List Char, ending <:+: l →
    ∃ stem tail, l = stem ++ ending ++ tail ∧ ¬ ending <:+: tail ∧
      pyJoin ending ((pySplit ending l).dropLast) = stem := by
  have hel : 1 ≤ ending.length := List.length_pos.mpr he
  have main : ∀ (n : Nat) (l : List Char), l.length ≤ n → ending <:+: l →
      ∃ stem tail, l = stem ++ ending ++ tail ∧ ¬ ending <:+: tail ∧
        pyJoin ending ((pySplit ending l).dropLast) = stem := by
    intro n
    induction n with
    | zero =>
      intro l hlen hinf
      obtain ⟨s, t, hst⟩ := hinf
      have hl : l = [] := by
        cases l with
        | nil => rfl
        | cons c r => simp at hlen
      rw [hl] at hst
      simp only [List.append_eq_nil] at hst
      exact absurd hst.1.2 he
    | succ n ih =>
      intro l hlen hinf
      match l with
      | [] =>
        obtain ⟨s, t, hst⟩ := hinf
        simp only [List.append_eq_nil] at hst
        exact absurd hst.1.2 he
      | c :: rest =>
        by_cases hp : ending.isPrefixOf (c :: rest) = true
        · obtain ⟨t, ht⟩ := isPrefixOf_true_iff.mp hp
          have hdrop : (c :: rest).drop ending.length = t := by
            rw [← ht, List.drop_left]
          by_cases hocc : ending <:+: t
          · have htlen : t.length ≤ n := by
              have hlt := congrArg List.length ht
              simp only [List.length_append, List.length_cons] at hlt hlen
              omega
            obtain ⟨stem2, tail2, heq, hnt, hjoin⟩ := ih t htlen hocc
            have h2 := pySplit_two_of_occ he t hocc
            obtain ⟨s, ss, hss⟩ := List.exists_cons_of_ne_nil (pySplit_ne_nil ending t)
            rw [hss] at h2
            match ss, h2 with
            | s2 :: ss2, _ =>
              refine ⟨ending ++ stem2, tail2, ?_, hnt, ?_⟩
              · rw [← ht, heq]
                simp [List.append_assoc]
              · rw [pySplit_cons, if_pos ⟨he, hp⟩, hdrop, hss]
                rw [hss] at hjoin
                rw [show (([] : List Char) :: s :: s2 :: ss2).dropLast =
                  [] :: (s :: s2 :: ss2).dropLast from rfl]
                rw [show (s :: s2 :: ss2).dropLast = s :: (s2 :: ss2).dropLast from rfl]
                rw [show pyJoin ending ([] :: s :: (s2 :: ss2).dropLast) =
                  [] ++ ending ++ pyJoin ending (s :: (s2 :: ss2).dropLast) from rfl]
                rw [show (s :: s2 :: ss2).dropLast = s :: (s2 :: ss2).dropLast from rfl] at hjoin
                rw [hjoin]
                simp
          · refine ⟨[], t, by rw [← ht]; simp, hocc, ?_⟩
            rw [pySplit_cons, if_pos ⟨he, hp⟩, hdrop, pySplit_no_occ ending t hocc]
            rfl
        · have hrest := occ_tail hp hinf
          have hrlen : rest.length ≤ n := by
            simp only [List.length_cons] at hlen
            omega
          obtain ⟨stem2, tail2, heq, hnt, hjoin⟩ := ih rest hrlen hrest
          have h2 := pySplit_two_of_occ he rest hrest
          obtain ⟨s, ss, hss⟩ := List.exists_cons_of_ne_nil (pySplit_ne_nil ending rest)
          rw [hss] at h2
          match ss, h2 with
          | s2 :: ss2, _ =>
            refine ⟨c :: stem2, tail2, by rw [heq]; rfl, hnt, ?_⟩
            rw [pySplit_cons, if_neg fun hc => hp hc.2, hss]
            rw [hss] at hjoin
            rw [show ((c :: s) :: s2 :: ss2).dropLast = (c :: s) :: (s2 :: ss2).dropLast
              from rfl]
            rw [pyJoin_cons_first]
            rw [show (s :: s2 :: ss2).dropLast = s :: (s2 :: ss2).dropLast from rfl] at hjoin
            rw [hjoin]
  intro l
  exact main l.length l le_rfl

theorem single_isPrefixOf (c x : Char) (t : List Char) :
    [c].isPrefixOf (x :: t) = (c == x) := by
  simp [List.isPrefixOf]

theorem pySplit_append_single (c : Char) (a b : List Char) :
    pySplit [c] (a ++ c :: b) = pySplit [c] a ++ pySplit [c] b := by
  induction a with
  | nil =>
    rw [List.nil_append, pySplit_cons]
    rw [if_pos ⟨by simp, isPrefixOf_true_iff.mpr ⟨b, rfl⟩⟩]
    rw [show (c :: b).drop ([c] : List Char).length = b from rfl, pySplit_nil]
    rfl
  | cons x a' ih =>
    rw [List.cons_append, pySplit_cons]
    by_cases hx : x = c
    · subst hx
      rw [if_pos ⟨by simp, isPrefixOf_true_iff.mpr ⟨a' ++ x :: b, rfl⟩⟩]
      rw [show (x :: (a' ++ x :: b)).drop ([x] : List Char).length = a' ++ x :: b from rfl]
      rw [ih]
      rw [pySplit_cons [x] x a']
      rw [if_pos ⟨by simp, isPrefixOf_true_iff.mpr ⟨a', rfl⟩⟩]
      rw [show (x :: a').drop ([x] : List Char).length = a' from rfl]
      rfl
    · have hcx : ¬ ([c] : List Char).isPrefixOf (x :: (a' ++ c :: b)) = true := by
        rw [single_isPrefixOf]
        simp [Ne.symm hx]
      rw [if_neg fun hc => hcx hc.2]
      rw [ih]
      obtain ⟨s, ss, hss⟩ := List.exists_cons_of_ne_nil (pySplit_ne_nil [c] a')
      rw [hss]
      rw [pySplit_cons [c] x a']
      have hcx' : ¬ ([c] : List Char).isPrefixOf (x :: a') = true := by
        rw [single_isPrefixOf]
        simp [Ne.symm hx]
      rw [if_neg fun hc => hcx' hc.2]
      rw [hss]
      rfl

theorem pyJoin_pySplit (sep : List Char) (l : List Char) :
    pyJoin sep (pySplit sep l) = l := by
  have main : ∀ (n : Nat) (l : List Char), l.length ≤ n →
      pyJoin sep (pySplit sep l) = l := by
    intro n
    induction n with
    | zero =>
      intro l hlen
      match l with
      | [] => rfl
      | c :: rest => simp at hlen
    | succ n ih =>
      intro l hlen
      match l with
      | [] => rfl
      | c :: rest =>
        rw [pySplit_cons]
        by_cases hif : sep ≠ [] ∧ sep.isPrefixOf (c :: rest)
        · rw [if_pos hif]
          obtain ⟨t, ht⟩ := isPrefixOf_true_iff.mp hif.2
          have hsep : 1 ≤ sep.length := by
            cases hsc : sep with
            | nil => exact absurd hsc hif.1
            | cons a b => simp
          have hdrop : (c :: rest).drop sep.length = t := by
            rw [← ht, List.drop_left]
          rw [hdrop]
          obtain ⟨s, ss, hss⟩ := List.exists_cons_of_ne_nil (pySplit_ne_nil sep t)
          have htlen : t.length ≤ n := by
            have := congrArg List.length ht
            simp only [List.length_append, List.length_cons] at this hlen
            omega
          have hjr : pyJoin sep (pySplit sep t) = t := ih t htlen
          rw [hss] at hjr ⊢
          rw [show pyJoin sep ([] :: s :: ss) = [] ++ sep ++ pyJoin sep (s :: ss) from rfl]
          rw [hjr, List.nil_append, ht]
        · rw [if_neg hif]
          obtain ⟨s, ss, hss⟩ := List.exists_cons_of_ne_nil (pySplit_ne_nil sep rest)
          rw [hss]
          have hjr : pyJoin sep (pySplit sep rest) = rest := by
            apply ih
            simp only [List.length_cons] at hlen
            omega
          rw [hss] at hjr
          match ss, hjr with
          | [], hjr =>
            rw [show pyJoin sep ([s] : List (List Char)) = s from rfl] at hjr
            rw [show pyJoin sep ([c :: s] : List (List Char)) = c :: s from rfl, hjr]
          | s2 :: ss2, hjr =>
            rw [show pyJoin sep (s :: s2 :: ss2) = s ++ sep ++ pyJoin sep (s2 :: ss2)
              from rfl] at hjr
            rw [show pyJoin sep ((c :: s) :: s2 :: ss2) =
              (c :: s) ++ sep ++ pyJoin sep (s2 :: ss2) from rfl]
            rw [← hjr]
            simp
  exact main l.length l le_rfl

theorem mem_of_single_occ {a : Char} {l : List Char} (h : [a] <:+: l) : a ∈ l := by
  obtain ⟨s, t, rfl⟩ := h
  simp

theorem getLastD_concat_nil (A : List (List Char)) (x : List Char) :
    (A ++ [x]).getLastD [] = x := by
  simp [List.getLastD_eq_getLast?]

/-- C7 (counterexample): for the input filename `README` (where the default
extension `.py` does not occur), `compile_kyc` writes to `./.kyc` — the
whole filename is dropped by `ending.join(last.split(ending)[:-1])` — not
to `./README.kyc` as the claim requires. -/
theorem output_path_readme :
    output_path ("README").toList (".py").toList = ("./.kyc").toList ∧
    output_path ("README").toList (".py").toList ≠ ("./README.kyc").toList := by
  constructor
  · decide
  · decide

/-- C7 (amended): the output file goes to the directory of the input
(`"."` when the input path has no directory part, including for a bare
`/name`).  When the configured extension occurs in the filename, the name
is `<stem>.kyc` where `<stem>` is the text strictly before the final
occurrence found by Python's left-to-right non-overlapping scan: the
filename decomposes as `stem ++ ending ++ tail` with no occurrence of the
extension in the dropped `tail`.  When the extension does not occur in the
filename at all, the whole filename is dropped and the output file is
named exactly `".kyc"`. -/
theorem output_path_amended :
    (∀ fname ending : List Char, ('/' : Char) ∉ fname → ¬ ending <:+: fname →
      output_path fname ending = ("./.kyc").toList) ∧
    (∀ dir fname ending : List Char, ('/' : Char) ∉ fname → ¬ ending <:+: fname →
      output_path (dir ++ '/' :: fname) ending =
        (if dir = [] then ['.'] else dir) ++ '/' :: (".kyc").toList) ∧
    (∀ fname ending : List Char, ending ≠ [] → ('/' : Char) ∉ fname →
      ending <:+: fname →
      ∃ stem tail, fname = stem ++ ending ++ tail ∧ ¬ ending <:+: tail ∧
        output_path fname ending = ("./").toList ++ stem ++ (".kyc").toList) ∧
    (∀ dir fname ending : List Char, ending ≠ [] → ('/' : Char) ∉ fname →
      ending <:+: fname →
      ∃ stem tail, fname = stem ++ ending ++ tail ∧ ¬ ending <:+: tail ∧
        output_path (dir ++ '/' :: fname) ending =
          (if dir = [] then ['.'] else dir) ++ '/' :: (stem ++ (".kyc").toList)) := by
  refine ⟨?_, ?_, ?_, ?_⟩
  · intro fname ending hmem hinf
    simp only [output_path, path_sep]
    rw [pySplit_no_occ _ fname (fun hi => hmem (mem_of_single_occ hi))]
    rw [show ([fname] : List (List Char)).getLastD [] = fname from rfl]
    rw [show ([fname] : List (List Char)).dropLast = [] from rfl]
    rw [pySplit_no_occ _ fname hinf]
    rw [show ([fname] : List (List Char)).dropLast = [] from rfl]
    simp [pyJoin]
  · intro dir fname ending hmem hinf
    simp only [output_path, path_sep]
    rw [pySplit_append_single]
    rw [pySplit_no_occ _ fname (fun hi => hmem (mem_of_single_occ hi))]
    rw [getLastD_concat_nil, List.dropLast_concat, pyJoin_pySplit]
    rw [pySplit_no_occ _ fname hinf]
    rw [show ([fname] : List (List Char)).dropLast = [] from rfl]
    simp [pyJoin]
  · intro fname ending he hmem hocc
    obtain ⟨stem, tail, heq, hnt, hjoin⟩ := pySplit_final_occ he fname hocc
    refine ⟨stem, tail, heq, hnt, ?_⟩
    simp only [output_path, path_sep]
    rw [pySplit_no_occ _ fname (fun hi => hmem (mem_of_single_occ hi))]
    rw [show ([fname] : List (List Char)).getLastD [] = fname from rfl]
    rw [show ([fname] : List (List Char)).dropLast = [] from rfl]
    rw [hjoin]
    simp [pyJoin]
  · intro dir fname ending he hmem hocc
    obtain ⟨stem, tail, heq, hnt, hjoin⟩ := pySplit_final_occ he fname hocc
    refine ⟨stem, tail, heq, hnt, ?_⟩
    simp only [output_path, path_sep]
    rw [pySplit_append_single]
    rw [pySplit_no_occ _ fname (fun hi => hmem (mem_of_single_occ hi))]
    rw [getLastD_concat_nil, List.dropLast_concat, pyJoin_pySplit]
    rw [hjoin]
    simp [pyJoin]

theorem output_path_amended_witness :
    (∃ stem tail, ("a.py.py").toList = stem ++ (".py").toList ++ tail ∧
      ¬ (".py").toList <:+: tail ∧
      output_path (("src").toList ++ '/' :: ("a.py.py").toList) (".py").toList =
        (if ("src").toList = [] then ['.'] else ("src").toList) ++ '/' ::
          (stem ++ (".kyc").toList)) ∧
    (∃ stem tail, ("foo.pyx").toList = stem ++ (".py").toList ++ tail ∧
      ¬ (".py").toList <:+: tail ∧
      output_path ("foo.pyx").toList (".py").toList =
        ("./").toList ++ stem ++ (".kyc").toList) ∧
    output_path ("README").toList (".py").toList = ("./.kyc").toList :=
  ⟨output_path_amended.2.2.2 ("src").toList ("a.py.py").toList (".py").toList
      (by decide) (by decide) (by decide),
    output_path_amended.2.2.1 ("foo.pyx").toList (".py").toList
      (by decide) (by decide) (by decide),
    output_path_amended.1 ("README").toList (".py").toList (by decide) (by decide)⟩
